import Mathlib

/-!
Verification of the session-reconstruction component of the
form-translator backend (`count_unique_days.py`).

Times are modelled as naive timestamps measured in whole seconds
(`Nat`); a Python `datetime` compares exactly like its second count for
the granularity used by this program, and `timedelta(minutes=g)`
corresponds to `g * 60` seconds.  The calendar date of a timestamp is
its day number `t / 86400`.

Python's `sorted(..., key=lambda x: x[0])` is a stable sort by the
first component; `sortByTime` below is a stable insertion sort, which
computes the same list.
-/

namespace FormTranslator

/-- Seconds in one day; `dateOf` is the `datetime.date()` projection. -/
def secondsPerDay : Nat := 86400

def dateOf (t : Nat) : Nat := t / secondsPerDay

/-- A session dict as built by `create_session_from_translations`:
date, start time, end time, the member records, and a count. -/
structure Session (α : Type) where
  date : Nat
  start_time : Nat
  end_time : Nat
  translations : List α
  count : Nat
deriving DecidableEq

/-- Stable insertion of a timed pair into a time-sorted list: the new
element goes before the first strictly-later element, hence after all
already-inserted elements of equal time. -/
def insertByTime {α : Type} (p : Nat × α) : List (Nat × α) → List (Nat × α)
  | [] => [p]
  | q :: qs => if p.1 ≤ q.1 then p :: q :: qs else q :: insertByTime p qs

/-- Model of Python's stable `sorted(lst, key=lambda x: x[0])`. -/
def sortByTime {α : Type} : List (Nat × α) → List (Nat × α)
  | [] => []
  | p :: ps => insertByTime p (sortByTime ps)

/-- Model of `create_session_from_translations`: `None` on an empty list,
otherwise sort by time, take first/last as start/end, the date of the
start, the records in given order and their count. -/
def create_session_from_translations {α : Type} (st : List (Nat × α)) :
    Option (Session α) :=
  match sortByTime st with
  | [] => none
  | a :: rest =>
    some { date := dateOf a.1
           start_time := a.1
           end_time := ((a :: rest).getLast (List.cons_ne_nil a rest)).1
           translations := st.map Prod.snd
           count := st.length }

/-- The scan loop of `group_translations_by_sessions`: `cur` is the
`current_session` buffer (in scan order), the list argument is the
remaining sorted input, `thr` the gap threshold in seconds. -/
def sessionsLoop {α : Type} (thr : Nat) (cur : List (Nat × α)) :
    List (Nat × α) → List (Session α)
  | [] =>
    match create_session_from_translations cur with
    | none => []
    | some s => [s]
  | p :: rest =>
    match cur.getLast? with
    | none => sessionsLoop thr [p] rest
    | some q =>
      if p.1 - q.1 ≤ thr then
        sessionsLoop thr (cur ++ [p]) rest
      else
        match create_session_from_translations cur with
        | none => sessionsLoop thr [p] rest
        | some s => s :: sessionsLoop thr [p] rest

/-- Model of `group_translations_by_sessions`: empty input gives `[]`;
otherwise sort by time and scan with threshold
`timedelta(minutes=session_gap_minutes)`, i.e. `session_gap_minutes * 60`
seconds. -/
def group_translations_by_sessions {α : Type} (twd : List (Nat × α))
    (session_gap_minutes : Nat) : List (Session α) :=
  match twd with
  | [] => []
  | _ :: _ => sessionsLoop (session_gap_minutes * 60) [] (sortByTime twd)

/-- The same scan as `sessionsLoop`, but returning the raw buffers
(chunks of timed pairs) instead of the session dicts built from them. -/
def chunksLoop {α : Type} (thr : Nat) (cur : List (Nat × α)) :
    List (Nat × α) → List (List (Nat × α))
  | [] =>
    match cur with
    | [] => []
    | _ :: _ => [cur]
  | p :: rest =>
    match cur.getLast? with
    | none => chunksLoop thr [p] rest
    | some q =>
      if p.1 - q.1 ≤ thr then
        chunksLoop thr (cur ++ [p]) rest
      else
        cur :: chunksLoop thr [p] rest

/-- The partition of the input into session chunks (the member events,
with their times, of each session emitted by
`group_translations_by_sessions`). -/
def sessionChunks {α : Type} (twd : List (Nat × α))
    (session_gap_minutes : Nat) : List (List (Nat × α)) :=
  match twd with
  | [] => []
  | _ :: _ => chunksLoop (session_gap_minutes * 60) [] (sortByTime twd)

/-- First and last entries of a list of times (used to describe the
time range of a chunk). -/
def loN (f : List Nat) : Nat := f.headD 0

def hiN (f : List Nat) : Nat := f.getLastD 0

/-- Membership of a timed pair in the closed time range of a chunk. -/
def inRange {α : Type} (f : List Nat) (x : Nat × α) : Bool :=
  decide (loN f ≤ x.1) && decide (x.1 ≤ hiN f)

/-- The chunking decision sequence only depends on the times, so the
times of the chunks are a function of the times of the input. -/
def chunksLoopFst (thr : Nat) (cur : List Nat) : List Nat → List (List Nat)
  | [] =>
    match cur with
    | [] => []
    | _ :: _ => [cur]
  | p :: rest =>
    match cur.getLast? with
    | none => chunksLoopFst thr [p] rest
    | some q =>
      if p - q ≤ thr then
        chunksLoopFst thr (cur ++ [p]) rest
      else
        cur :: chunksLoopFst thr [p] rest

/-- The observable metadata of a session, as a function of the times
of its chunk. -/
def metaOfFst (f : List Nat) : Nat × Nat × Nat × Nat :=
  (dateOf (loN f), loN f, hiN f, f.length)

/-! ### The timestamp parser (`parse_datetime_string`)

Python library behaviour is modelled executably: `str.strip` and
`str.replace` of Z by +00:00 over the character list, `strptime` for
the four formats of `formats_to_try` following CPython's per-directive
regexes (`%m` = `1[0-2]|0[1-9]|[1-9]`, `%d` = `3[01]|[12]\d|0[1-9]|[1-9]`,
`%Y` = four digits, `%H` = `2[0-3]|[0-1]\d|\d`, `%M` = `[0-5]\d|\d`,
`%S` = `6[0-1]|[0-5]\d|\d`, a space matching one or more whitespace
characters, and the whole string consumed), followed by the range
validation of the `datetime` constructor; and `datetime.fromisoformat`
in its strict form (`YYYY-MM-DD`, optionally one separator character
and `HH[:MM[:SS[.fff[fff]]]]`, optionally a `+HH:MM[:SS]` offset). -/

/-- A Python `datetime`: the fields produced by parsing.  The offset
field records an aware datetime's UTC offset in minutes (`none` for
naive datetimes, which is what all four `strptime` formats produce). -/
structure PyDateTime where
  year : Nat
  month : Nat
  day : Nat
  hour : Nat
  minute : Nat
  second : Nat
  utcOffsetMinutes : Option Int
deriving DecidableEq

/-- ASCII whitespace as treated by `str.strip()` and `\s`. -/
def pyIsSpace (c : Char) : Bool :=
  c = ' ' ∨ c = '\t' ∨ c = '\n' ∨ c = '\r' ∨ c = '\x0b' ∨ c = '\x0c'

def pyStripChars (l : List Char) : List Char :=
  ((l.dropWhile pyIsSpace).reverse.dropWhile pyIsSpace).reverse

/-- Model of Python `str.strip()`. -/
def pyStrip (s : String) : String := ⟨pyStripChars s.data⟩

def replaceZChars : List Char → List Char
  | [] => []
  | c :: cs =>
    if c = 'Z' then '+' :: '0' :: '0' :: ':' :: '0' :: '0' :: replaceZChars cs
    else c :: replaceZChars cs

/-- Model of the replacement of every Z in the raw string by +00:00. -/
def pyReplaceZ (s : String) : String := ⟨replaceZChars s.data⟩

def digitVal (c : Char) : Nat := c.toNat - 48

/-- Directive `%m`: month, `1[0-2]|0[1-9]|[1-9]`. -/
def parsePercentM : List Char → Option (Nat × List Char)
  | c₁ :: c₂ :: rest =>
    if c₁ = '1' ∧ c₂.isDigit ∧ digitVal c₂ ≤ 2 then
      some (10 + digitVal c₂, rest)
    else if c₁ = '0' ∧ c₂.isDigit ∧ 1 ≤ digitVal c₂ then
      some (digitVal c₂, rest)
    else if c₁.isDigit ∧ 1 ≤ digitVal c₁ then
      some (digitVal c₁, c₂ :: rest)
    else none
  | [c₁] =>
    if c₁.isDigit ∧ 1 ≤ digitVal c₁ then some (digitVal c₁, []) else none
  | [] => none

/-- Directive `%d`: day, `3[01]|[12]\d|0[1-9]|[1-9]`. -/
def parsePercentD : List Char → Option (Nat × List Char)
  | c₁ :: c₂ :: rest =>
    if c₁ = '3' ∧ (c₂ = '0' ∨ c₂ = '1') then
      some (30 + digitVal c₂, rest)
    else if (c₁ = '1' ∨ c₁ = '2') ∧ c₂.isDigit then
      some (10 * digitVal c₁ + digitVal c₂, rest)
    else if c₁ = '0' ∧ c₂.isDigit ∧ 1 ≤ digitVal c₂ then
      some (digitVal c₂, rest)
    else if c₁.isDigit ∧ 1 ≤ digitVal c₁ then
      some (digitVal c₁, c₂ :: rest)
    else none
  | [c₁] =>
    if c₁.isDigit ∧ 1 ≤ digitVal c₁ then some (digitVal c₁, []) else none
  | [] => none

/-- Directive `%Y`: year, exactly four digits. -/
def parsePercentY : List Char → Option (Nat × List Char)
  | c₁ :: c₂ :: c₃ :: c₄ :: rest =>
    if c₁.isDigit ∧ c₂.isDigit ∧ c₃.isDigit ∧ c₄.isDigit then
      some (1000 * digitVal c₁ + 100 * digitVal c₂ + 10 * digitVal c₃
        + digitVal c₄, rest)
    else none
  | _ => none

/-- Directive `%H`: hour, `2[0-3]|[0-1]\d|\d`. -/
def parsePercentH : List Char → Option (Nat × List Char)
  | c₁ :: c₂ :: rest =>
    if c₁ = '2' ∧ c₂.isDigit ∧ digitVal c₂ ≤ 3 then
      some (20 + digitVal c₂, rest)
    else if (c₁ = '0' ∨ c₁ = '1') ∧ c₂.isDigit then
      some (10 * digitVal c₁ + digitVal c₂, rest)
    else if c₁.isDigit then some (digitVal c₁, c₂ :: rest)
    else none
  | [c₁] => if c₁.isDigit then some (digitVal c₁, []) else none
  | [] => none

/-- Directive `%M`: minute, `[0-5]\d|\d`. -/
def parsePercentMin : List Char → Option (Nat × List Char)
  | c₁ :: c₂ :: rest =>
    if c₁.isDigit ∧ digitVal c₁ ≤ 5 ∧ c₂.isDigit then
      some (10 * digitVal c₁ + digitVal c₂, rest)
    else if c₁.isDigit then some (digitVal c₁, c₂ :: rest)
    else none
  | [c₁] => if c₁.isDigit then some (digitVal c₁, []) else none
  | [] => none

/-- Directive `%S`: second, `6[0-1]|[0-5]\d|\d`. -/
def parsePercentS : List Char → Option (Nat × List Char)
  | c₁ :: c₂ :: rest =>
    if c₁ = '6' ∧ (c₂ = '0' ∨ c₂ = '1') then
      some (60 + digitVal c₂, rest)
    else if c₁.isDigit ∧ digitVal c₁ ≤ 5 ∧ c₂.isDigit then
      some (10 * digitVal c₁ + digitVal c₂, rest)
    else if c₁.isDigit then some (digitVal c₁, c₂ :: rest)
    else none
  | [c₁] => if c₁.isDigit then some (digitVal c₁, []) else none
  | [] => none

/-- A literal character of the format string. -/
def parseLit (ch : Char) : List Char → Option (List Char)
  | c :: rest => if c = ch then some rest else none
  | [] => none

/-- A space in the format string matches one or more whitespace
characters. -/
def parseSpaces : List Char → Option (List Char)
  | c :: rest =>
    if pyIsSpace c then some (rest.dropWhile pyIsSpace) else none
  | [] => none

def isLeapYear (y : Nat) : Bool := (y % 4 = 0 ∧ ¬ y % 100 = 0) ∨ y % 400 = 0

def daysInMonth (y m : Nat) : Nat :=
  if m = 2 then (if isLeapYear y then 29 else 28)
  else if m = 4 ∨ m = 6 ∨ m = 9 ∨ m = 11 then 30
  else 31

/-- Range checks of the `datetime` constructor. -/
def validDate (y m d : Nat) : Bool :=
  1 ≤ y ∧ y ≤ 9999 ∧ 1 ≤ m ∧ m ≤ 12 ∧ 1 ≤ d ∧ d ≤ daysInMonth y m

def validTime (h mi s : Nat) : Bool := h ≤ 23 ∧ mi ≤ 59 ∧ s ≤ 59

def mkPyDateTime (y m d h mi s : Nat) (tz : Option Int) :
    Option PyDateTime :=
  if validDate y m d ∧ validTime h mi s then some ⟨y, m, d, h, mi, s, tz⟩
  else none

/-- Model of `datetime.strptime` with format `%m/%d/%Y %H:%M:%S`. -/
def strptimeMDYHMS (s : String) : Option PyDateTime := do
  let (m, r₁) ← parsePercentM s.data
  let r₂ ← parseLit '/' r₁
  let (d, r₃) ← parsePercentD r₂
  let r₄ ← parseLit '/' r₃
  let (y, r₅) ← parsePercentY r₄
  let r₆ ← parseSpaces r₅
  let (h, r₇) ← parsePercentH r₆
  let r₈ ← parseLit ':' r₇
  let (mi, r₉) ← parsePercentMin r₈
  let r₁₀ ← parseLit ':' r₉
  let (sec, r₁₁) ← parsePercentS r₁₀
  match r₁₁ with
  | [] => mkPyDateTime y m d h mi sec none
  | _ :: _ => none

/-- Model of `datetime.strptime` with format `%m/%d/%Y`. -/
def strptimeMDY (s : String) : Option PyDateTime := do
  let (m, r₁) ← parsePercentM s.data
  let r₂ ← parseLit '/' r₁
  let (d, r₃) ← parsePercentD r₂
  let r₄ ← parseLit '/' r₃
  let (y, r₅) ← parsePercentY r₄
  match r₅ with
  | [] => mkPyDateTime y m d 0 0 0 none
  | _ :: _ => none

/-- Model of `datetime.strptime` with format `%Y-%m-%d %H:%M:%S`. -/
def strptimeYMDHMS (s : String) : Option PyDateTime := do
  let (y, r₁) ← parsePercentY s.data
  let r₂ ← parseLit '-' r₁
  let (m, r₃) ← parsePercentM r₂
  let r₄ ← parseLit '-' r₃
  let (d, r₅) ← parsePercentD r₄
  let r₆ ← parseSpaces r₅
  let (h, r₇) ← parsePercentH r₆
  let r₈ ← parseLit ':' r₇
  let (mi, r₉) ← parsePercentMin r₈
  let r₁₀ ← parseLit ':' r₉
  let (sec, r₁₁) ← parsePercentS r₁₀
  match r₁₁ with
  | [] => mkPyDateTime y m d h mi sec none
  | _ :: _ => none

/-- Model of `datetime.strptime` with format `%Y-%m-%d`. -/
def strptimeYMD (s : String) : Option PyDateTime := do
  let (y, r₁) ← parsePercentY s.data
  let r₂ ← parseLit '-' r₁
  let (m, r₃) ← parsePercentM r₂
  let r₄ ← parseLit '-' r₃
  let (d, r₅) ← parsePercentD r₄
  match r₅ with
  | [] => mkPyDateTime y m d 0 0 0 none
  | _ :: _ => none

def parse2Digits : List Char → Option (Nat × List Char)
  | c₁ :: c₂ :: rest =>
    if c₁.isDigit ∧ c₂.isDigit then
      some (10 * digitVal c₁ + digitVal c₂, rest)
    else none
  | _ => none

/-- An optional `.fff` or `.ffffff` fraction (its value is discarded:
sub-second precision plays no role in this analysis). -/
def parseIsoFraction : List Char → Option (List Char)
  | '.' :: c₁ :: c₂ :: c₃ :: c₄ :: c₅ :: c₆ :: rest =>
    if c₁.isDigit ∧ c₂.isDigit ∧ c₃.isDigit then
      if c₄.isDigit ∧ c₅.isDigit ∧ c₆.isDigit then some rest
      else some (c₄ :: c₅ :: c₆ :: rest)
    else none
  | '.' :: c₁ :: c₂ :: c₃ :: rest =>
    if c₁.isDigit ∧ c₂.isDigit ∧ c₃.isDigit then some rest else none
  | l => some l

/-- Time part `HH[:MM[:SS[.fraction]]]` of an ISO time string. -/
def parseIsoHMS (l : List Char) : Option (Nat × Nat × Nat × List Char) := do
  let (h, r₁) ← parse2Digits l
  match r₁ with
  | ':' :: r₂ => do
    let (mi, r₃) ← parse2Digits r₂
    match r₃ with
    | ':' :: r₄ => do
      let (s, r₅) ← parse2Digits r₄
      let r₆ ← parseIsoFraction r₅
      some (h, mi, s, r₆)
    | _ => some (h, mi, 0, r₃)
  | _ => some (h, 0, 0, r₁)

/-- Optional UTC-offset suffix `±HH:MM[:SS]`; yields minutes. -/
def parseIsoOffset : List Char → Option (Option Int × List Char)
  | [] => some (none, [])
  | c :: rest =>
    if c = '+' ∨ c = '-' then do
      let (th, tm, ts, r) ← parseIsoHMS rest
      if th * 3600 + tm * 60 + ts < 86400 then
        some (some ((if c = '-' then -1 else 1) * (th * 60 + tm : Int)), r)
      else none
    else none

/-- Model of `datetime.fromisoformat` (strict form): `YYYY-MM-DD`,
optionally one separator character, a time and an offset. -/
def pyFromIsoformat (s : String) : Option PyDateTime := do
  match s.data with
  | y₁ :: y₂ :: y₃ :: y₄ :: '-' :: m₁ :: m₂ :: '-' :: d₁ :: d₂ :: rest =>
    if y₁.isDigit ∧ y₂.isDigit ∧ y₃.isDigit ∧ y₄.isDigit
        ∧ m₁.isDigit ∧ m₂.isDigit ∧ d₁.isDigit ∧ d₂.isDigit then
      let y := 1000 * digitVal y₁ + 100 * digitVal y₂ + 10 * digitVal y₃
        + digitVal y₄
      let m := 10 * digitVal m₁ + digitVal m₂
      let d := 10 * digitVal d₁ + digitVal d₂
      match rest with
      | [] => mkPyDateTime y m d 0 0 0 none
      | _ :: timeChars => do
        let (h, mi, sec, r₁) ← parseIsoHMS timeChars
        let (tz, r₂) ← parseIsoOffset r₁
        match r₂ with
        | [] => mkPyDateTime y m d h mi sec tz
        | _ :: _ => none
    else none
  | _ => none

/-- The ordered list of accepted `strptime` formats (`formats_to_try`
of the source). -/
def formats_to_try : List (String → Option PyDateTime) :=
  [strptimeMDYHMS, strptimeMDY, strptimeYMDHMS, strptimeYMD]

/-- The `for fmt in formats_to_try` loop: first successful parse. -/
def tryFormats : List (String → Option PyDateTime) → String →
    Option PyDateTime
  | [], _ => none
  | f :: fs, s =>
    match f s with
    | some d => some d
    | none => tryFormats fs s

/-- Model of `parse_datetime_string`: `None` on empty or blank input, else the
first successful `strptime` format applied to the stripped string,
else `fromisoformat` of the original string with every Z replaced by
+00:00, else `None`. -/
def parse_datetime_string (date_str : String) : Option PyDateTime :=
  if date_str = "" ∨ pyStrip date_str = "" then none
  else
    match tryFormats formats_to_try (pyStrip date_str) with
    | some d => some d
    | none => pyFromIsoformat (pyReplaceZ date_str)

/-! ### The analysis pipeline of `count_unique_days_in_history` -/

/-- Days from 1-01-01 to the first of the month. -/
def daysBeforeMonth (y m : Nat) : Nat :=
  (List.range (m - 1)).foldl (fun acc k => acc + daysInMonth y (k + 1)) 0

/-- The proleptic-Gregorian day number of `dt.date()` (Python's
`toordinal()` shifted by one; only equality and order of dates are
used). -/
def PyDateTime.toOrdinal (dt : PyDateTime) : Nat :=
  let n := dt.year - 1
  365 * n + n / 4 - n / 100 + n / 400 + daysBeforeMonth dt.year dt.month
    + (dt.day - 1)

/-- The timestamp of a (naive) `datetime` in seconds, the order isomorph
of Python's `datetime` comparison at second granularity. -/
def PyDateTime.toSeconds (dt : PyDateTime) : Nat :=
  dt.toOrdinal * secondsPerDay + dt.hour * 3600 + dt.minute * 60 + dt.second

/-- Model of `extract_date_from_datetime`: `None` for `None`, else the
date part. -/
def extract_date_from_datetime : Option PyDateTime → Option Nat
  | none => none
  | some dt => some dt.toOrdinal

/-- A history record as consumed by the analysis loop: the `datetime`
field and the `id` field, each possibly missing. -/
structure HRecord where
  datetime : Option String
  id : Option String
deriving DecidableEq

/-- Model of the lookup `record.get` of the datetime field with default
empty string. -/
def HRecord.getDatetime (r : HRecord) : String := r.datetime.getD ("")

/-- Model of the lookup `record.get` of the id field with default
`unknown`. -/
def HRecord.getId (r : HRecord) : String := r.id.getD ("unknown")

/-- An entry of the `parse_errors` diagnostic list. -/
structure ParseFailure where
  row : Nat
  datetime_str : String
  record_id : String
deriving DecidableEq

/-- The accumulator state of the analysis loop over `history_data`. -/
structure ScanState where
  unique_dates : Finset Nat
  parse_errors : List ParseFailure
  translations_with_datetime : List (Nat × HRecord)
deriving DecidableEq

/-- The `for i, record in enumerate(history_data)` loop: a record whose
timestamp fails to parse is recorded as a failure at row `i + 2` with
its raw string and its id (default `unknown`); otherwise its date
joins `unique_dates` and the pair joins
`translations_with_datetime`. -/
def scanHistory : Nat → List HRecord → ScanState
  | _, [] => ⟨∅, [], []⟩
  | i, r :: rest =>
    let datetime_str := r.getDatetime
    match parse_datetime_string datetime_str with
    | none =>
      let st := scanHistory (i + 1) rest
      ⟨st.unique_dates, ⟨i + 2, datetime_str, r.getId⟩ :: st.parse_errors,
        st.translations_with_datetime⟩
    | some dt_obj =>
      let st := scanHistory (i + 1) rest
      match extract_date_from_datetime (some dt_obj) with
      | none => ⟨st.unique_dates, st.parse_errors,
          st.translations_with_datetime⟩
      | some date_only =>
        ⟨insert date_only st.unique_dates, st.parse_errors,
          (dt_obj.toSeconds, r) :: st.translations_with_datetime⟩

/-- The error report of the reporter: the first five failures plus the
total count. -/
def parse_errors_preview (parse_errors : List ParseFailure) :
    List ParseFailure × Nat :=
  (parse_errors.take 5, parse_errors.length)

/-- The list comprehension `session_counts`: the counts of the sessions. -/
def session_counts {α : Type} (sessions : List (Session α)) : List Nat :=
  sessions.map Session.count

/-- The statistic `total_users`: the number of sessions. -/
def total_users {α : Type} (sessions : List (Session α)) : Nat :=
  sessions.length

/-- The mean `sum(session_counts) / len(session_counts)` (exact rational
model of the float mean). -/
def avg_translations_per_session {α : Type}
    (sessions : List (Session α)) : ℚ :=
  ((session_counts sessions).sum : ℚ) / ((session_counts sessions).length : ℚ)

/-- Python `max(..., key=...)` keeps the current element on ties, so
the first maximum wins. -/
def pyMaxGo {α : Type} (best : Session α) : List (Session α) → Session α
  | [] => best
  | s :: rest => if best.count < s.count then pyMaxGo s rest
                 else pyMaxGo best rest

/-- Model of the call of `max` over sessions keyed by count (`none` on empty input,
where Python raises and the source guards with `if sessions:`). -/
def max_session {α : Type} : List (Session α) → Option (Session α)
  | [] => none
  | s :: rest => some (pyMaxGo s rest)

/-- Python `min(..., key=...)`: the first minimum wins. -/
def pyMinGo {α : Type} (best : Session α) : List (Session α) → Session α
  | [] => best
  | s :: rest => if s.count < best.count then pyMinGo s rest
                 else pyMinGo best rest

/-- Model of the call of `min` over sessions keyed by count. -/
def min_session {α : Type} : List (Session α) → Option (Session α)
  | [] => none
  | s :: rest => some (pyMinGo s rest)

/-! ### The session builder over actual datetime values

The `Nat`-timestamp embedding above places all events on one numeric
timeline, which presumes every pair of datetimes is comparable.  In
Python that is not guaranteed: the four `strptime` formats produce
offset-naive datetimes while the `fromisoformat` fallback can produce
offset-aware ones, and comparing or subtracting a naive and an aware
datetime raises `TypeError`.  The following checked model runs the
same builder over actual `PyDateTime` values, with `none` modelling a
raised `TypeError` escaping the function. -/

/-- Python comparison of two datetimes (the ordering used by
`sorted`): naive pairs compare by wall clock, aware pairs by
UTC-adjusted time, and a mixed pair raises `TypeError` (`none`). -/
def pyCompareLE (a b : PyDateTime) : Option Bool :=
  match a.utcOffsetMinutes, b.utcOffsetMinutes with
  | none, none => some (decide (a.toSeconds ≤ b.toSeconds))
  | some oa, some ob =>
    some (decide ((a.toSeconds : Int) - oa * 60
      ≤ (b.toSeconds : Int) - ob * 60))
  | _, _ => none

/-- Checked stable insertion over actual datetimes: `none` as soon as
a performed comparison raises. -/
def insertByTimePy {α : Type} (p : PyDateTime × α) :
    List (PyDateTime × α) → Option (List (PyDateTime × α))
  | [] => some [p]
  | q :: qs =>
    match pyCompareLE p.1 q.1 with
    | none => none
    | some true => some (p :: q :: qs)
    | some false => (insertByTimePy p qs).map (fun out => q :: out)

/-- Checked model of `sorted(translations_with_datetime,
key=lambda x: x[0])` over actual datetimes. -/
def sortByTimePy {α : Type} : List (PyDateTime × α) →
    Option (List (PyDateTime × α))
  | [] => some []
  | p :: ps => (sortByTimePy ps).bind (insertByTimePy p)

/-- The checked gap test `dt_obj - prev_dt <= timedelta(minutes=g)`:
subtraction of a mixed pair raises `TypeError` (`none`). -/
def pyGapLE (prev cur : PyDateTime) (thrSeconds : Nat) : Option Bool :=
  match prev.utcOffsetMinutes, cur.utcOffsetMinutes with
  | none, none =>
    some (decide ((cur.toSeconds : Int) - prev.toSeconds
      ≤ (thrSeconds : Int)))
  | some op, some oc =>
    some (decide (((cur.toSeconds : Int) - oc * 60)
      - ((prev.toSeconds : Int) - op * 60) ≤ (thrSeconds : Int)))
  | _, _ => none

/-- Checked `create_session_from_translations` over actual datetimes.
At every call site of the scan loop the buffer is nonempty, so `none`
here models only the raising inner sort.  Times are recorded on the
wall-clock second timeline. -/
def create_session_from_translations_py {α : Type}
    (st : List (PyDateTime × α)) : Option (Session α) :=
  match sortByTimePy st with
  | none => none
  | some [] => none
  | some (a :: rest) =>
    some { date := a.1.toOrdinal
           start_time := a.1.toSeconds
           end_time :=
             ((a :: rest).getLast (List.cons_ne_nil a rest)).1.toSeconds
           translations := st.map Prod.snd
           count := st.length }

/-- The scan loop of the builder over actual datetimes with checked
comparisons. -/
def sessionsLoopPy {α : Type} (thr : Nat) (cur : List (PyDateTime × α)) :
    List (PyDateTime × α) → Option (List (Session α))
  | [] =>
    match cur with
    | [] => some []
    | _ :: _ =>
      match create_session_from_translations_py cur with
      | none => none
      | some s => some [s]
  | p :: rest =>
    match cur.getLast? with
    | none => sessionsLoopPy thr [p] rest
    | some q =>
      match pyGapLE q.1 p.1 thr with
      | none => none
      | some true => sessionsLoopPy thr (cur ++ [p]) rest
      | some false =>
        match create_session_from_translations_py cur with
        | none => none
        | some s => (sessionsLoopPy thr [p] rest).map (fun out => s :: out)

/-- `group_translations_by_sessions` over the parser's actual output
type: `none` models a `TypeError` raised out of the function (possible
exactly when offset-naive and offset-aware timestamps are mixed). -/
def group_translations_by_sessions_py {α : Type}
    (twd : List (PyDateTime × α)) (session_gap_minutes : Nat) :
    Option (List (Session α)) :=
  match twd with
  | [] => some []
  | _ :: _ =>
    match sortByTimePy twd with
    | none => none
    | some sorted => sessionsLoopPy (session_gap_minutes * 60) [] sorted

/-! ### Basic facts about the stable sort -/

lemma insertByTime_perm {α : Type} (p : Nat × α) (l : List (Nat × α)) :
    (insertByTime p l).Perm (p :: l) := by
  induction l with
  | nil => simp [insertByTime]
  | cons q qs ih =>
    by_cases h : p.1 ≤ q.1
    · simp [insertByTime, h]
    · simp only [insertByTime, if_neg h]
      exact (ih.cons q).trans (List.Perm.swap p q qs)

lemma sortByTime_perm {α : Type} (l : List (Nat × α)) :
    (sortByTime l).Perm l := by
  induction l with
  | nil => simp [sortByTime]
  | cons p ps ih =>
    exact (insertByTime_perm p (sortByTime ps)).trans (ih.cons p)

lemma mem_insertByTime {α : Type} {p x : Nat × α} {l : List (Nat × α)} :
    x ∈ insertByTime p l ↔ x = p ∨ x ∈ l := by
  rw [(insertByTime_perm p l).mem_iff]
  simp

lemma insertByTime_pairwise {α : Type} (p : Nat × α) {l : List (Nat × α)}
    (h : l.Pairwise (fun a b => a.1 ≤ b.1)) :
    (insertByTime p l).Pairwise (fun a b => a.1 ≤ b.1) := by
  induction l with
  | nil => simp [insertByTime]
  | cons q qs ih =>
    rw [List.pairwise_cons] at h
    by_cases hpq : p.1 ≤ q.1
    · rw [insertByTime, if_pos hpq, List.pairwise_cons]
      refine ⟨?_, List.Pairwise.cons h.1 h.2⟩
      intro b hb
      rcases List.mem_cons.1 hb with hb | hb
      · subst hb; exact hpq
      · exact le_trans hpq (h.1 b hb)
    · rw [insertByTime, if_neg hpq, List.pairwise_cons]
      refine ⟨?_, ih h.2⟩
      intro b hb
      rcases mem_insertByTime.1 hb with hb | hb
      · subst hb; omega
      · exact h.1 b hb

lemma sortByTime_pairwise {α : Type} (l : List (Nat × α)) :
    (sortByTime l).Pairwise (fun a b => a.1 ≤ b.1) := by
  induction l with
  | nil => simp [sortByTime]
  | cons p ps ih => exact insertByTime_pairwise p ih

lemma sortByTime_eq_nil_iff {α : Type} {l : List (Nat × α)} :
    sortByTime l = [] ↔ l = [] := by
  constructor
  · intro h
    have := (sortByTime_perm l).length_eq
    rw [h] at this
    exact List.length_eq_zero.1 this.symm
  · intro h; subst h; rfl

lemma sortByTime_of_pairwise {α : Type} {l : List (Nat × α)}
    (h : l.Pairwise (fun a b => a.1 ≤ b.1)) : sortByTime l = l := by
  induction l with
  | nil => rfl
  | cons p ps ih =>
    rw [List.pairwise_cons] at h
    rw [sortByTime, ih h.2]
    cases ps with
    | nil => rfl
    | cons q qs =>
      rw [insertByTime, if_pos (h.1 q (by simp))]

/-! ### The scan loop as a chunking of the sorted input -/

lemma create_session_nil {α : Type} :
    create_session_from_translations ([] : List (Nat × α)) = none := rfl

lemma sessionsLoop_eq_filterMap {α : Type} (thr : Nat) :
    ∀ (l cur : List (Nat × α)),
    sessionsLoop thr cur l =
      (chunksLoop thr cur l).filterMap create_session_from_translations := by
  intro l
  induction l with
  | nil =>
    intro cur
    cases cur with
    | nil => simp [sessionsLoop, chunksLoop, create_session_nil]
    | cons c cs =>
      simp only [sessionsLoop, chunksLoop, List.filterMap_cons, List.filterMap_nil]
      cases h : create_session_from_translations (c :: cs) <;> simp [h]
  | cons p rest ih =>
    intro cur
    cases hc : cur.getLast? with
    | none => simp [sessionsLoop, chunksLoop, hc, ih]
    | some q =>
      by_cases hgap : p.1 - q.1 ≤ thr
      · simp [sessionsLoop, chunksLoop, hc, hgap, ih]
      · simp only [sessionsLoop, chunksLoop, hc, if_neg hgap, List.filterMap_cons]
        cases h : create_session_from_translations cur <;> simp [h, ih]

lemma chunksLoop_flatten {α : Type} (thr : Nat) :
    ∀ (l cur : List (Nat × α)), (chunksLoop thr cur l).flatten = cur ++ l := by
  intro l
  induction l with
  | nil =>
    intro cur
    cases cur <;> simp [chunksLoop]
  | cons p rest ih =>
    intro cur
    cases hc : cur.getLast? with
    | none =>
      have : cur = [] := List.getLast?_eq_none_iff.1 hc
      subst this
      simp [chunksLoop, ih]
    | some q =>
      by_cases hgap : p.1 - q.1 ≤ thr
      · simp [chunksLoop, hc, hgap, ih]
      · simp [chunksLoop, hc, hgap, ih]

lemma chunksLoop_first {α : Type} (thr : Nat) :
    ∀ (l cur : List (Nat × α)), cur ≠ [] →
    ∃ d tc, chunksLoop thr cur l = (cur ++ d) :: tc := by
  intro l
  induction l with
  | nil =>
    intro cur hne
    cases cur with
    | nil => exact absurd rfl hne
    | cons c cs => exact ⟨[], [], by simp [chunksLoop]⟩
  | cons p rest ih =>
    intro cur hne
    cases hc : cur.getLast? with
    | none => exact absurd (List.getLast?_eq_none_iff.1 hc) hne
    | some q =>
      by_cases hgap : p.1 - q.1 ≤ thr
      · obtain ⟨d, tc, hd⟩ := ih (cur ++ [p]) (by simp)
        exact ⟨[p] ++ d, tc, by simp only [chunksLoop, hc, if_pos hgap, hd,
          List.append_assoc]⟩
      · exact ⟨[], chunksLoop thr [p] rest, by simp [chunksLoop, hc, hgap]⟩

/-- Every member is at most the time of the last element of a
time-sorted list. -/
lemma pairwise_le_getLast {α : Type} :
    ∀ {l : List (Nat × α)}, l.Pairwise (fun a b => a.1 ≤ b.1) →
    ∀ x ∈ l, ∀ (hl : l ≠ []), x.1 ≤ (l.getLast hl).1 := by
  intro l
  induction l with
  | nil => intro _ x hx; exact absurd hx (List.not_mem_nil x)
  | cons a t ih =>
    intro h x hx hl
    rw [List.pairwise_cons] at h
    cases t with
    | nil =>
      simp at hx
      subst hx
      simp [List.getLast]
    | cons b u =>
      rw [List.getLast_cons (by simp)]
      rcases List.mem_cons.1 hx with hx | hx
      · subst hx
        exact le_trans (h.1 _ (List.getLast_mem (l := b :: u) (by simp)))
          (le_refl _)
      · exact ih h.2 x hx (by simp)

lemma chunksLoop_invariants {α : Type} (thr : Nat) :
    ∀ (l cur : List (Nat × α)),
    cur.Pairwise (fun a b => a.1 ≤ b.1) →
    cur.Chain' (fun a b => b.1 - a.1 ≤ thr) →
    l.Pairwise (fun a b => a.1 ≤ b.1) →
    (∀ x ∈ cur.getLast?, ∀ y ∈ l.head?, x.1 ≤ y.1) →
    (∀ c ∈ chunksLoop thr cur l,
      c ≠ [] ∧ c.Pairwise (fun a b => a.1 ≤ b.1)
        ∧ c.Chain' (fun a b => b.1 - a.1 ≤ thr))
    ∧ (chunksLoop thr cur l).Chain'
        (fun c d => ∀ x ∈ c.getLast?, ∀ y ∈ d.head?, thr < y.1 - x.1) := by
  intro l
  induction l with
  | nil =>
    intro cur hsort hgaps _ _
    cases cur with
    | nil => simp [chunksLoop]
    | cons c cs =>
      constructor
      · intro d hd
        simp only [chunksLoop, List.mem_singleton] at hd
        subst hd
        exact ⟨by simp, hsort, hgaps⟩
      · simp [chunksLoop]
  | cons p rest ih =>
    intro cur hsort hgaps hlsort hbridge
    rw [List.pairwise_cons] at hlsort
    cases hc : cur.getLast? with
    | none =>
      have hcur : cur = [] := List.getLast?_eq_none_iff.1 hc
      subst hcur
      simp only [chunksLoop, hc]
      exact ih [p] (by simp) (by simp)
        hlsort.2
        (by
          intro x hx y hy
          simp at hx
          subst hx
          exact hlsort.1 y (List.mem_of_mem_head? hy))
    | some q =>
      have hq : ∀ (hne : cur ≠ []), q = cur.getLast hne := by
        intro hne
        have := List.getLast?_eq_getLast cur hne
        rw [hc] at this
        exact Option.some.inj this
      have hcurne : cur ≠ [] := by
        intro hcur
        subst hcur
        simp at hc
      by_cases hgap : p.1 - q.1 ≤ thr
      · simp only [chunksLoop, hc, if_pos hgap]
        refine ih (cur ++ [p]) ?_ ?_ hlsort.2 ?_
        · rw [List.pairwise_append]
          refine ⟨hsort, by simp, ?_⟩
          intro a ha b hb
          simp only [List.mem_singleton] at hb
          rw [hb]
          have hqp : q.1 ≤ p.1 := hbridge q (by rw [hc]; rfl) p rfl
          exact le_trans (by
            rw [hq hcurne]
            exact pairwise_le_getLast hsort a ha hcurne) hqp
        · rw [List.chain'_append]
          refine ⟨hgaps, by simp, ?_⟩
          intro x hx y hy
          simp only [List.head?_cons, Option.mem_def, Option.some.injEq] at hy
          rw [← hy]
          rw [hc] at hx
          simp only [Option.mem_def, Option.some.injEq] at hx
          rw [← hx]
          exact hgap
        · intro x hx y hy
          rw [List.getLast?_append] at hx
          simp at hx
          subst hx
          exact hlsort.1 y (List.mem_of_mem_head? hy)
      · simp only [chunksLoop, hc, if_neg hgap]
        have hrec := ih [p] (by simp) (by simp) hlsort.2
          (by
            intro x hx y hy
            simp at hx
            subst hx
            exact hlsort.1 y (List.mem_of_mem_head? hy))
        constructor
        · intro c hcmem
          rcases List.mem_cons.1 hcmem with hcmem | hcmem
          · subst hcmem
            exact ⟨hcurne, hsort, hgaps⟩
          · exact hrec.1 c hcmem
        · rw [List.chain'_cons']
          refine ⟨?_, hrec.2⟩
          intro d hd x hx y hy
          obtain ⟨d', tc, hfirst⟩ := chunksLoop_first thr rest [p] (by simp)
          rw [hfirst] at hd
          simp at hd
          subst hd
          simp at hy
          subst hy
          rw [hc] at hx
          simp at hx
          subst hx
          omega

/-- Bundled properties of the chunk decomposition produced by the scan:
every chunk is nonempty, time-sorted and has internal gaps at most the
threshold; adjacent chunks are separated by more than the threshold;
the chunks concatenate to the sorted input; and the session list is
exactly the chunks mapped through `create_session_from_translations`. -/
lemma sessionChunks_props {α : Type} (twd : List (Nat × α)) (g : Nat) :
    (∀ c ∈ sessionChunks twd g,
      c ≠ [] ∧ c.Pairwise (fun a b => a.1 ≤ b.1)
        ∧ c.Chain' (fun a b => b.1 - a.1 ≤ g * 60))
    ∧ (sessionChunks twd g).Chain'
        (fun c d => ∀ x ∈ c.getLast?, ∀ y ∈ d.head?, g * 60 < y.1 - x.1)
    ∧ (sessionChunks twd g).flatten = sortByTime twd
    ∧ group_translations_by_sessions twd g =
        (sessionChunks twd g).filterMap create_session_from_translations := by
  cases twd with
  | nil => simp [sessionChunks, group_translations_by_sessions, sortByTime]
  | cons a l =>
    have hinv := chunksLoop_invariants (g * 60) (sortByTime (a :: l)) []
      (by simp) (by simp) (sortByTime_pairwise _) (by simp)
    refine ⟨hinv.1, hinv.2, ?_, ?_⟩
    · simpa using chunksLoop_flatten (g * 60) (sortByTime (a :: l)) []
    · exact sessionsLoop_eq_filterMap (g * 60) (sortByTime (a :: l)) []

/-- Evaluation of `create_session_from_translations` on an already
time-sorted nonempty chunk. -/
lemma create_session_of_pairwise {α : Type} {c : List (Nat × α)}
    (h : c.Pairwise (fun a b => a.1 ≤ b.1)) (hne : c ≠ []) :
    create_session_from_translations c =
      some { date := dateOf (c.head hne).1
             start_time := (c.head hne).1
             end_time := (c.getLast hne).1
             translations := c.map Prod.snd
             count := c.length } := by
  cases c with
  | nil => exact absurd rfl hne
  | cons a rest =>
    rw [create_session_from_translations]
    rw [sortByTime_of_pairwise h]
    rfl

/-- Sessions built from nonempty sorted chunks separated by more than
the threshold are in strictly ascending time order. -/
lemma chain'_sessions_of_chunks {α : Type} {g : Nat} :
    ∀ (C : List (List (Nat × α))),
    (∀ c ∈ C, c ≠ [] ∧ c.Pairwise (fun a b => a.1 ≤ b.1)) →
    C.Chain' (fun c d => ∀ x ∈ c.getLast?, ∀ y ∈ d.head?, g * 60 < y.1 - x.1) →
    (C.filterMap create_session_from_translations).Chain'
      (fun s t => s.end_time < t.start_time) := by
  intro C
  induction C with
  | nil => intro _ _; simp
  | cons c C' ih =>
    intro hc hsep
    obtain ⟨hcne, hcsort⟩ := hc c (by simp)
    rw [List.filterMap_cons, create_session_of_pairwise hcsort hcne]
    rw [List.chain'_cons']
    rw [List.chain'_cons'] at hsep
    refine ⟨?_, ih (fun d hd => hc d (List.mem_cons_of_mem c hd)) hsep.2⟩
    intro t ht
    cases C' with
    | nil => simp at ht
    | cons d C'' =>
      obtain ⟨hdne, hdsort⟩ := hc d (by simp)
      rw [List.filterMap_cons, create_session_of_pairwise hdsort hdne] at ht
      simp only [List.head?_cons, Option.mem_def, Option.some.injEq] at ht
      rw [← ht]
      simp only []
      have hsep1 := hsep.1 d (by simp) (c.getLast hcne)
        (by rw [List.getLast?_eq_getLast c hcne]; rfl) (d.head hdne)
        (List.head_mem_head? hdne)
      omega

/-- A session's count equals the length of its chunk. -/
lemma map_count_filterMap_create {α : Type} :
    ∀ (C : List (List (Nat × α))),
    (∀ c ∈ C, c ≠ [] ∧ c.Pairwise (fun a b => a.1 ≤ b.1)) →
    (C.filterMap create_session_from_translations).map Session.count
      = C.map List.length := by
  intro C
  induction C with
  | nil => intro _; rfl
  | cons c C' ih =>
    intro h
    have hc := h c (by simp)
    rw [List.filterMap_cons, create_session_of_pairwise hc.2 hc.1]
    simp only [List.map_cons]
    rw [ih (fun d hd => h d (List.mem_cons_of_mem c hd))]

/-! ### Claims C1 and C2: invariants and partition of the output -/

/-- C1: every session emitted by the builder (equivalently, every chunk
of the chunk decomposition that underlies it) satisfies the stated
invariants: within a chunk consecutive events are at most 3600 s
apart; adjacent chunks are separated by more than 3600 s; the start
time of the session built from a chunk bounds every member time from
below and its end time from above; and sessions are emitted in
strictly ascending time order. -/
theorem claim_C1_session_invariants {α : Type} (twd : List (Nat × α)) :
    group_translations_by_sessions twd 60 =
      (sessionChunks twd 60).filterMap create_session_from_translations
    ∧ (∀ c ∈ sessionChunks twd 60, c.Chain' (fun a b => b.1 - a.1 ≤ 3600))
    ∧ (sessionChunks twd 60).Chain'
        (fun c d => ∀ x ∈ c.getLast?, ∀ y ∈ d.head?, 3600 < y.1 - x.1)
    ∧ (∀ c ∈ sessionChunks twd 60, ∀ s,
        create_session_from_translations c = some s →
        ∀ e ∈ c, s.start_time ≤ e.1 ∧ e.1 ≤ s.end_time)
    ∧ (group_translations_by_sessions twd 60).Chain'
        (fun s t => s.end_time < t.start_time) := by
  obtain ⟨hchunks, hsep, hflat, hgroup⟩ := sessionChunks_props twd 60
  refine ⟨hgroup, ?_, ?_, ?_, ?_⟩
  · intro c hcm
    exact (hchunks c hcm).2.2
  · exact hsep
  · intro c hcm s hs e he
    obtain ⟨hcne, hcsort, _⟩ := hchunks c hcm
    rw [create_session_of_pairwise hcsort hcne] at hs
    rw [← Option.some.inj hs]
    constructor
    · cases c with
      | nil => exact absurd rfl hcne
      | cons a rest =>
        rcases List.mem_cons.1 he with he | he
        · rw [he]; exact le_refl _
        · rw [List.pairwise_cons] at hcsort
          exact hcsort.1 e he
    · exact pairwise_le_getLast hcsort e he hcne
  · rw [hgroup]
    exact chain'_sessions_of_chunks (sessionChunks twd 60)
      (fun c hcm => ⟨(hchunks c hcm).1, (hchunks c hcm).2.1⟩) hsep

/-- C2: the builder's output is a partition of its input: the chunks
of the decomposition concatenate to a permutation of the input (every
parsed event lies in exactly one emitted session), and the session
counts sum to the number of input events. -/
theorem claim_C2_partition {α : Type} (twd : List (Nat × α)) :
    group_translations_by_sessions twd 60 =
      (sessionChunks twd 60).filterMap create_session_from_translations
    ∧ (sessionChunks twd 60).flatten.Perm twd
    ∧ ((group_translations_by_sessions twd 60).map Session.count).sum
        = twd.length := by
  obtain ⟨hchunks, _, hflat, hgroup⟩ := sessionChunks_props twd 60
  have hperm : (sessionChunks twd 60).flatten.Perm twd := by
    rw [hflat]; exact sortByTime_perm twd
  refine ⟨hgroup, hperm, ?_⟩
  have hmap : (group_translations_by_sessions twd 60).map Session.count
      = (sessionChunks twd 60).map List.length := by
    rw [hgroup]
    exact map_count_filterMap_create (sessionChunks twd 60)
      (fun c hcm => ⟨(hchunks c hcm).1, (hchunks c hcm).2.1⟩)
  rw [hmap]
  calc ((sessionChunks twd 60).map List.length).sum
      = (sessionChunks twd 60).flatten.length := (List.length_flatten _).symm
    _ = twd.length := hperm.length_eq

/-! ### Claim C5: input-order independence up to tie order -/

lemma loN_map_fst {α : Type} {c : List (Nat × α)} (hne : c ≠ []) :
    loN (c.map Prod.fst) = (c.head hne).1 := by
  cases c with
  | nil => exact absurd rfl hne
  | cons a r => rfl

lemma hiN_map_fst {α : Type} {c : List (Nat × α)} (hne : c ≠ []) :
    hiN (c.map Prod.fst) = (c.getLast hne).1 := by
  rw [hiN, List.getLastD_eq_getLast?, List.getLast?_map,
    List.getLast?_eq_getLast c hne]
  rfl

lemma chunksLoop_map_fst {α : Type} (thr : Nat) :
    ∀ (l cur : List (Nat × α)),
    (chunksLoop thr cur l).map (List.map Prod.fst) =
      chunksLoopFst thr (cur.map Prod.fst) (l.map Prod.fst) := by
  intro l
  induction l with
  | nil =>
    intro cur
    cases cur <;> simp [chunksLoop, chunksLoopFst]
  | cons p rest ih =>
    intro cur
    cases hc : cur.getLast? with
    | none =>
      have hcur : cur = [] := List.getLast?_eq_none_iff.1 hc
      subst hcur
      simpa [chunksLoop, chunksLoopFst] using ih [p]
    | some q =>
      have hcfst : (cur.map Prod.fst).getLast? = some q.1 := by
        rw [List.getLast?_map, hc]
        rfl
      by_cases hgap : p.1 - q.1 ≤ thr
      · simp only [List.map_cons, chunksLoop, chunksLoopFst, hc, hcfst,
          if_pos hgap]
        simpa using ih (cur ++ [p])
      · simp only [List.map_cons, chunksLoop, chunksLoopFst, hc, hcfst,
          if_neg hgap, List.map_cons]
        exact congrArg _ (ih [p])

/-- Chunks are pairwise strictly time-separated: every event of an
earlier chunk is strictly before every event of a later chunk. -/
lemma pairwise_allLt_of_chunks {α : Type} {thr : Nat} :
    ∀ (C : List (List (Nat × α))),
    (∀ c ∈ C, c ≠ [] ∧ c.Pairwise (fun a b => a.1 ≤ b.1)) →
    C.Chain' (fun c d => ∀ x ∈ c.getLast?, ∀ y ∈ d.head?, thr < y.1 - x.1) →
    C.Pairwise (fun c d => ∀ x ∈ c, ∀ y ∈ d, x.1 < y.1) := by
  intro C
  induction C with
  | nil => intro _ _; exact List.Pairwise.nil
  | cons c C' ih =>
    intro hprops hchain
    rw [List.chain'_cons'] at hchain
    have hC' := ih (fun d hd => hprops d (List.mem_cons_of_mem c hd)) hchain.2
    rw [List.pairwise_cons]
    refine ⟨?_, hC'⟩
    obtain ⟨hcne, hcsort⟩ := hprops c (by simp)
    cases C' with
    | nil => intro d hd; exact absurd hd (List.not_mem_nil d)
    | cons d₀ C'' =>
      obtain ⟨hd₀ne, hd₀sort⟩ := hprops d₀ (by simp)
      have hsep := hchain.1 d₀ (List.head_mem_head? (by simp))
        (c.getLast hcne) (by rw [List.getLast?_eq_getLast c hcne]; rfl)
        (d₀.head hd₀ne) (List.head_mem_head? hd₀ne)
      have hlt : ∀ x ∈ c, ∀ y ∈ d₀, x.1 < y.1 := by
        intro x hx y hy
        have hx' := pairwise_le_getLast hcsort x hx hcne
        have hy' : (d₀.head hd₀ne).1 ≤ y.1 := by
          cases d₀ with
          | nil => exact absurd rfl hd₀ne
          | cons b u =>
            rcases List.mem_cons.1 hy with hy | hy
            · rw [hy]; exact le_refl _
            · rw [List.pairwise_cons] at hd₀sort
              exact hd₀sort.1 y hy
        omega
      intro d hd
      rcases List.mem_cons.1 hd with hd | hd
      · rw [hd]; exact hlt
      · intro x hx y hy
        rw [List.pairwise_cons] at hC'
        have hmid := hC'.1 d hd (d₀.head hd₀ne) (List.head_mem hd₀ne) y hy
        have := hlt x hx (d₀.head hd₀ne) (List.head_mem hd₀ne)
        omega

/-- Each chunk is exactly the filter of the whole sorted list by the
chunk's closed time range. -/
lemma chunk_eq_filter {α : Type} {C : List (List (Nat × α))}
    {S : List (Nat × α)} (hflat : C.flatten = S)
    (hprops : ∀ c ∈ C, c ≠ [] ∧ c.Pairwise (fun a b => a.1 ≤ b.1))
    (hpw : C.Pairwise (fun c d => ∀ x ∈ c, ∀ y ∈ d, x.1 < y.1)) :
    ∀ c ∈ C, S.filter (inRange (c.map Prod.fst)) = c := by
  intro c hcm
  obtain ⟨hcne, hcsort⟩ := hprops c hcm
  obtain ⟨C₁, C₂, hC⟩ := List.append_of_mem hcm
  subst hC
  rw [← hflat, List.flatten_append, List.flatten_cons]
  rw [List.filter_append, List.filter_append]
  rw [List.pairwise_append] at hpw
  have hbound : ∀ x ∈ c, loN (c.map Prod.fst) ≤ x.1
      ∧ x.1 ≤ hiN (c.map Prod.fst) := by
    intro x hx
    rw [loN_map_fst hcne, hiN_map_fst hcne]
    constructor
    · cases c with
      | nil => exact absurd rfl hcne
      | cons a r =>
        rcases List.mem_cons.1 hx with hx | hx
        · rw [hx]; exact le_refl _
        · rw [List.pairwise_cons] at hcsort
          exact hcsort.1 x hx
    · exact pairwise_le_getLast hcsort x hx hcne
  have h₁ : C₁.flatten.filter (inRange (c.map Prod.fst)) = [] := by
    rw [List.filter_eq_nil_iff]
    intro x hx
    obtain ⟨c', hc'm, hxc'⟩ := List.mem_flatten.1 hx
    have hlt := hpw.2.2 c' hc'm c (by simp) x hxc' (c.head hcne)
      (List.head_mem hcne)
    rw [inRange, loN_map_fst hcne]
    simp only [Bool.and_eq_true, decide_eq_true_eq, not_and]
    omega
  have h₂ : C₂.flatten.filter (inRange (c.map Prod.fst)) = [] := by
    rw [List.filter_eq_nil_iff]
    intro x hx
    obtain ⟨c', hc'm, hxc'⟩ := List.mem_flatten.1 hx
    have hp := List.pairwise_cons.1 hpw.2.1
    have hlt := hp.1 c' hc'm (c.getLast hcne) (List.getLast_mem hcne) x hxc'
    rw [inRange, hiN_map_fst hcne]
    simp only [Bool.and_eq_true, decide_eq_true_eq, not_and]
    omega
  have h₃ : c.filter (inRange (c.map Prod.fst)) = c := by
    rw [List.filter_eq_self]
    intro x hx
    have := hbound x hx
    rw [inRange]
    simp only [Bool.and_eq_true, decide_eq_true_eq]
    omega
  rw [h₁, h₂, h₃]
  simp

lemma map_meta_filterMap_create {α : Type} :
    ∀ (C : List (List (Nat × α))),
    (∀ c ∈ C, c ≠ [] ∧ c.Pairwise (fun a b => a.1 ≤ b.1)) →
    (C.filterMap create_session_from_translations).map
        (fun s => (s.date, s.start_time, s.end_time, s.count))
      = (C.map (List.map Prod.fst)).map metaOfFst := by
  intro C
  induction C with
  | nil => intro _; rfl
  | cons c C' ih =>
    intro h
    obtain ⟨hcne, hcsort⟩ := h c (by simp)
    rw [List.filterMap_cons, create_session_of_pairwise hcsort hcne]
    simp only [List.map_cons]
    rw [ih (fun d hd => h d (List.mem_cons_of_mem c hd))]
    rw [metaOfFst, loN_map_fst hcne, hiN_map_fst hcne, List.length_map]

lemma sortByTime_fst_eq {α : Type} {l₁ l₂ : List (Nat × α)}
    (h : l₁.Perm l₂) :
    (sortByTime l₁).map Prod.fst = (sortByTime l₂).map Prod.fst := by
  have hperm : ((sortByTime l₁).map Prod.fst).Perm
      ((sortByTime l₂).map Prod.fst) :=
    (((sortByTime_perm l₁).trans h).trans (sortByTime_perm l₂).symm).map _
  exact List.eq_of_perm_of_sorted hperm
    (List.Pairwise.map Prod.fst (fun a b hab => hab) (sortByTime_pairwise l₁))
    (List.Pairwise.map Prod.fst (fun a b hab => hab) (sortByTime_pairwise l₂))

lemma sessionChunks_fst_eq {α : Type} {l₁ l₂ : List (Nat × α)}
    (h : l₁.Perm l₂) (g : Nat) :
    (sessionChunks l₁ g).map (List.map Prod.fst) =
      (sessionChunks l₂ g).map (List.map Prod.fst) := by
  cases hl₁ : l₁ with
  | nil =>
    have : l₂ = [] := by
      subst hl₁
      exact h.symm.eq_nil
    rw [this]
  | cons a t =>
    cases hl₂ : l₂ with
    | nil =>
      subst hl₂
      exact absurd (h.eq_nil) (by rw [hl₁]; simp)
    | cons b u =>
      subst hl₁
      subst hl₂
      rw [sessionChunks, sessionChunks, chunksLoop_map_fst, chunksLoop_map_fst]
      rw [show ((([] : List (Nat × α))).map Prod.fst) = [] from rfl]
      rw [sortByTime_fst_eq h]

/-- C5: the session builder is input-order independent up to tie
order: on any two permuted inputs, the chunk decompositions have the
same length, corresponding chunks are permutations of one another with
identical time sequences (so member order can differ only among equal
timestamps), and the emitted sessions have identical dates, start and
end times and counts. -/
theorem claim_C5_order_independence {α : Type} (l₁ l₂ : List (Nat × α))
    (h : l₁.Perm l₂) :
    List.Forall₂ (fun c d => c.Perm d ∧ c.map Prod.fst = d.map Prod.fst)
      (sessionChunks l₁ 60) (sessionChunks l₂ 60)
    ∧ (group_translations_by_sessions l₁ 60).map
        (fun s => (s.date, s.start_time, s.end_time, s.count))
      = (group_translations_by_sessions l₂ 60).map
        (fun s => (s.date, s.start_time, s.end_time, s.count)) := by
  obtain ⟨hchunks₁, hsep₁, hflat₁, hgroup₁⟩ := sessionChunks_props l₁ 60
  obtain ⟨hchunks₂, hsep₂, hflat₂, hgroup₂⟩ := sessionChunks_props l₂ 60
  have hprops₁ : ∀ c ∈ sessionChunks l₁ 60,
      c ≠ [] ∧ c.Pairwise (fun a b => a.1 ≤ b.1) :=
    fun c hc => ⟨(hchunks₁ c hc).1, (hchunks₁ c hc).2.1⟩
  have hprops₂ : ∀ c ∈ sessionChunks l₂ 60,
      c ≠ [] ∧ c.Pairwise (fun a b => a.1 ≤ b.1) :=
    fun c hc => ⟨(hchunks₂ c hc).1, (hchunks₂ c hc).2.1⟩
  have hpw₁ := pairwise_allLt_of_chunks _ hprops₁ hsep₁
  have hpw₂ := pairwise_allLt_of_chunks _ hprops₂ hsep₂
  have hfst := sessionChunks_fst_eq h 60
  have hSperm : (sortByTime l₁).Perm (sortByTime l₂) :=
    ((sortByTime_perm l₁).trans h).trans (sortByTime_perm l₂).symm
  constructor
  · rw [List.forall₂_iff_get]
    have hlen : (sessionChunks l₁ 60).length = (sessionChunks l₂ 60).length := by
      have := congrArg List.length hfst
      simpa using this
    refine ⟨hlen, ?_⟩
    intro i h₁ h₂
    have h' := congrArg (fun L => L[i]?) hfst
    simp only [List.getElem?_map, List.getElem?_eq_getElem h₁,
      List.getElem?_eq_getElem h₂, Option.map_some'] at h'
    have hget : ((sessionChunks l₁ 60).get ⟨i, h₁⟩).map Prod.fst
        = ((sessionChunks l₂ 60).get ⟨i, h₂⟩).map Prod.fst :=
      Option.some.inj h'
    have hmem₁ := List.get_mem (sessionChunks l₁ 60) i h₁
    have hmem₂ := List.get_mem (sessionChunks l₂ 60) i h₂
    have hf₁ := chunk_eq_filter hflat₁ hprops₁ hpw₁ _ hmem₁
    have hf₂ := chunk_eq_filter hflat₂ hprops₂ hpw₂ _ hmem₂
    refine ⟨?_, hget⟩
    rw [← hf₁, ← hf₂, hget]
    exact hSperm.filter _
  · rw [hgroup₁, hgroup₂, map_meta_filterMap_create _ hprops₁,
      map_meta_filterMap_create _ hprops₂, hfst]

/-- C5 witness at a concrete pair of permuted inputs. -/
theorem claim_C5_order_independence_witness :
    ([(7200, 0), (0, 1)] : List (Nat × Nat)).Perm [(0, 1), (7200, 0)]
    ∧ (List.Forall₂ (fun c d => c.Perm d ∧ c.map Prod.fst = d.map Prod.fst)
        (sessionChunks [(7200, 0), (0, 1)] 60)
        (sessionChunks [(0, 1), (7200, 0)] 60)
      ∧ (group_translations_by_sessions [(7200, 0), (0, 1)] 60).map
          (fun s => (s.date, s.start_time, s.end_time, s.count))
        = (group_translations_by_sessions [(0, 1), (7200, 0)] 60).map
          (fun s => (s.date, s.start_time, s.end_time, s.count))) :=
  ⟨List.Perm.swap _ _ _,
   claim_C5_order_independence [(7200, 0), (0, 1)] [(0, 1), (7200, 0)]
     (List.Perm.swap _ _ _)⟩

/-! ### Claim C6: the parser's fallback chain -/

/-- C6: the parser returns `None` for blank input, otherwise the first
successful format among the four, in order, applied to the stripped
string; when all four fail it falls back to the generic ISO parse of
the input with a trailing `Z` normalized to `+00:00`; it is total, so
failure is the value `None` rather than an exception. -/
theorem claim_C6_parser_chain (s : String) (d : PyDateTime) :
    (pyStrip s = "" → parse_datetime_string s = none)
    ∧ (strptimeMDYHMS (pyStrip s) = some d →
        parse_datetime_string s = some d)
    ∧ (strptimeMDYHMS (pyStrip s) = none →
        strptimeMDY (pyStrip s) = some d →
        parse_datetime_string s = some d)
    ∧ (strptimeMDYHMS (pyStrip s) = none →
        strptimeMDY (pyStrip s) = none →
        strptimeYMDHMS (pyStrip s) = some d →
        parse_datetime_string s = some d)
    ∧ (strptimeMDYHMS (pyStrip s) = none →
        strptimeMDY (pyStrip s) = none →
        strptimeYMDHMS (pyStrip s) = none →
        strptimeYMD (pyStrip s) = some d →
        parse_datetime_string s = some d)
    ∧ (pyStrip s ≠ "" →
        strptimeMDYHMS (pyStrip s) = none →
        strptimeMDY (pyStrip s) = none →
        strptimeYMDHMS (pyStrip s) = none →
        strptimeYMD (pyStrip s) = none →
        parse_datetime_string s = pyFromIsoformat (pyReplaceZ s)) := by
  have hblank : pyStrip s = "" → parse_datetime_string s = none := by
    intro h
    rw [parse_datetime_string, if_pos (Or.inr h)]
  have hnotblank : ∀ d', strptimeMDYHMS (pyStrip s) = some d' →
      pyStrip s ≠ "" := by
    intro d' h hc
    rw [hc] at h
    exact Option.noConfusion h
  have hsne : pyStrip s ≠ "" → s ≠ "" := by
    intro h hc
    rw [hc] at h
    exact h rfl
  refine ⟨hblank, ?_, ?_, ?_, ?_, ?_⟩
  · intro h1
    have hne := hnotblank d h1
    rw [parse_datetime_string, if_neg (by
      intro hor
      rcases hor with hor | hor
      · exact hsne hne hor
      · exact hne hor)]
    simp [tryFormats, formats_to_try, h1]
  · intro h1 h2
    have hne : pyStrip s ≠ "" := by
      intro hc
      rw [hc] at h2
      exact Option.noConfusion ((rfl : strptimeMDY ("") = none) ▸ h2)
    rw [parse_datetime_string, if_neg (by
      intro hor
      rcases hor with hor | hor
      · exact hsne hne hor
      · exact hne hor)]
    simp [tryFormats, formats_to_try, h1, h2]
  · intro h1 h2 h3
    have hne : pyStrip s ≠ "" := by
      intro hc
      rw [hc] at h3
      exact Option.noConfusion ((rfl : strptimeYMDHMS ("") = none) ▸ h3)
    rw [parse_datetime_string, if_neg (by
      intro hor
      rcases hor with hor | hor
      · exact hsne hne hor
      · exact hne hor)]
    simp [tryFormats, formats_to_try, h1, h2, h3]
  · intro h1 h2 h3 h4
    have hne : pyStrip s ≠ "" := by
      intro hc
      rw [hc] at h4
      exact Option.noConfusion ((rfl : strptimeYMD ("") = none) ▸ h4)
    rw [parse_datetime_string, if_neg (by
      intro hor
      rcases hor with hor | hor
      · exact hsne hne hor
      · exact hne hor)]
    simp [tryFormats, formats_to_try, h1, h2, h3, h4]
  · intro hne h1 h2 h3 h4
    rw [parse_datetime_string, if_neg (by
      intro hor
      rcases hor with hor | hor
      · exact hsne hne hor
      · exact hne hor)]
    simp [tryFormats, formats_to_try, h1, h2, h3, h4]

/-- C6 witness: a concrete string in the primary format. -/
theorem claim_C6_parser_chain_witness :
    strptimeMDYHMS (pyStrip ("01/02/2024 03:04:05")) =
      some ⟨2024, 1, 2, 3, 4, 5, none⟩
    ∧ parse_datetime_string ("01/02/2024 03:04:05") =
        some ⟨2024, 1, 2, 3, 4, 5, none⟩ :=
  ⟨by decide,
   (claim_C6_parser_chain ("01/02/2024 03:04:05")
     ⟨2024, 1, 2, 3, 4, 5, none⟩).2.1 (by decide)⟩

/-! ### Scan-loop characterizations -/

lemma scanHistory_parse_errors :
    ∀ (hist : List HRecord) (i : Nat),
    (scanHistory i hist).parse_errors =
      ((List.enumFrom i hist).filter
        (fun p => (parse_datetime_string p.2.getDatetime).isNone)).map
        (fun p => ⟨p.1 + 2, p.2.getDatetime, p.2.getId⟩) := by
  intro hist
  induction hist with
  | nil => intro i; rfl
  | cons r rest ih =>
    intro i
    rw [List.enumFrom_cons]
    cases h : parse_datetime_string r.getDatetime with
    | none =>
      rw [List.filter_cons_of_pos (by simp [h])]
      simp only [scanHistory, h, List.map_cons]
      rw [ih (i + 1)]
    | some dt =>
      rw [List.filter_cons_of_neg (by simp [h])]
      simp only [scanHistory, h, extract_date_from_datetime]
      exact ih (i + 1)

lemma scanHistory_translations :
    ∀ (hist : List HRecord) (i : Nat),
    (scanHistory i hist).translations_with_datetime =
      hist.filterMap (fun r =>
        (parse_datetime_string r.getDatetime).map
          (fun dt => (dt.toSeconds, r))) := by
  intro hist
  induction hist with
  | nil => intro i; rfl
  | cons r rest ih =>
    intro i
    cases h : parse_datetime_string r.getDatetime with
    | none =>
      simp only [scanHistory, h, List.filterMap_cons, Option.map_none']
      exact ih (i + 1)
    | some dt =>
      simp only [scanHistory, h, extract_date_from_datetime,
        List.filterMap_cons, Option.map_some']
      rw [ih (i + 1)]

lemma scanHistory_unique_dates :
    ∀ (hist : List HRecord) (i : Nat),
    (scanHistory i hist).unique_dates =
      ((hist.filterMap (fun r => parse_datetime_string r.getDatetime)).map
        PyDateTime.toOrdinal).toFinset := by
  intro hist
  induction hist with
  | nil => intro i; rfl
  | cons r rest ih =>
    intro i
    cases h : parse_datetime_string r.getDatetime with
    | none =>
      simp only [scanHistory, h, List.filterMap_cons]
      exact ih (i + 1)
    | some dt =>
      simp only [scanHistory, h, extract_date_from_datetime,
        List.filterMap_cons, List.map_cons, List.toFinset_cons]
      rw [ih (i + 1)]

lemma scanHistory_length :
    ∀ (hist : List HRecord) (i : Nat),
    (scanHistory i hist).parse_errors.length
      + (scanHistory i hist).translations_with_datetime.length
      = hist.length := by
  intro hist
  induction hist with
  | nil => intro i; rfl
  | cons r rest ih =>
    intro i
    cases h : parse_datetime_string r.getDatetime with
    | none =>
      simp only [scanHistory, h, List.length_cons]
      have := ih (i + 1)
      omega
    | some dt =>
      simp only [scanHistory, h, extract_date_from_datetime,
        List.length_cons]
      have := ih (i + 1)
      omega

/-! ### Claim C8: unique-day count -/

/-- C8: the unique-day count is the number of distinct calendar dates
among successfully parsed events; when exactly two distinct dates carry
events it equals 2, with no reference to how sessions fall on dates. -/
theorem claim_C8_unique_days (hist : List HRecord) (d₁ d₂ : Nat) :
    (scanHistory 0 hist).unique_dates =
      ((hist.filterMap (fun r => parse_datetime_string r.getDatetime)).map
        PyDateTime.toOrdinal).toFinset
    ∧ (d₁ ≠ d₂ →
        ((hist.filterMap (fun r => parse_datetime_string r.getDatetime)).map
          PyDateTime.toOrdinal).toFinset = {d₁, d₂} →
        (scanHistory 0 hist).unique_dates.card = 2) := by
  refine ⟨scanHistory_unique_dates hist 0, ?_⟩
  intro hne hset
  rw [scanHistory_unique_dates hist 0, hset]
  exact Finset.card_pair hne

/-- C8 witness: two records on two distinct dates give count 2. -/
theorem claim_C8_unique_days_witness :
    ((738886 : Nat) ≠ 738887
      ∧ ((((([⟨some ("01/02/2024 10:00:00"), some ("a")⟩,
           ⟨some ("01/03/2024 09:00:00"), some ("b")⟩] :
            List HRecord).filterMap
          (fun r => parse_datetime_string r.getDatetime)).map
          PyDateTime.toOrdinal)).toFinset = {738886, 738887}))
    ∧ (scanHistory 0
        [⟨some ("01/02/2024 10:00:00"), some ("a")⟩,
         ⟨some ("01/03/2024 09:00:00"), some ("b")⟩]).unique_dates.card = 2 :=
  ⟨⟨by decide, by decide⟩,
   (claim_C8_unique_days
     [⟨some ("01/02/2024 10:00:00"), some ("a")⟩,
      ⟨some ("01/03/2024 09:00:00"), some ("b")⟩] 738886 738887).2
     (by decide) (by decide)⟩

/-! ### Claim C9: per-session aggregate statistics -/

lemma pyMaxGo_split {α : Type} :
    ∀ (l : List (Session α)) (best : Session α),
    ∃ l₁ l₂, best :: l = l₁ ++ (pyMaxGo best l) :: l₂
      ∧ (∀ s ∈ l₁, s.count < (pyMaxGo best l).count)
      ∧ (∀ s ∈ l₂, s.count ≤ (pyMaxGo best l).count) := by
  intro l
  induction l with
  | nil =>
    intro best
    exact ⟨[], [], rfl, by simp, by simp⟩
  | cons s rest ih =>
    intro best
    by_cases hlt : best.count < s.count
    · obtain ⟨l₁, l₂, heq, hbefore, hafter⟩ := ih s
      rw [pyMaxGo, if_pos hlt]
      have hsle : s.count ≤ (pyMaxGo s rest).count := by
        cases l₁ with
        | nil =>
          rw [List.nil_append] at heq
          injection heq with h1 h2
          rw [← h1]
        | cons x t =>
          rw [List.cons_append] at heq
          injection heq with h1 h2
          exact le_of_lt (hbefore s (by rw [h1]; simp))
      exact ⟨best :: l₁, l₂, by rw [List.cons_append, ← heq],
        (by
          intro u hu
          rcases List.mem_cons.1 hu with hu | hu
          · rw [hu]; omega
          · exact hbefore u hu),
        hafter⟩
    · obtain ⟨l₁, l₂, heq, hbefore, hafter⟩ := ih best
      rw [pyMaxGo, if_neg hlt]
      cases l₁ with
      | nil =>
        rw [List.nil_append] at heq
        injection heq with hbest hrest
        refine ⟨[], s :: l₂, ?_, by simp, ?_⟩
        · rw [List.nil_append, ← hbest, ← hrest]
        · intro u hu
          rcases List.mem_cons.1 hu with hu | hu
          · rw [hu, ← hbest]; omega
          · exact hafter u hu
      | cons x t =>
        rw [List.cons_append] at heq
        injection heq with hx hrest
        refine ⟨best :: s :: t, l₂, ?_, ?_, hafter⟩
        · rw [List.cons_append, List.cons_append, ← hrest]
        · intro u hu
          have hxlt : x.count < (pyMaxGo best rest).count :=
            hbefore x (by simp)
          have hbx : best.count = x.count := by rw [hx]
          rcases List.mem_cons.1 hu with hu | hu
          · rw [hu]; omega
          · rcases List.mem_cons.1 hu with hu | hu
            · rw [hu]; omega
            · exact hbefore u (by simp [hu])

lemma pyMinGo_split {α : Type} :
    ∀ (l : List (Session α)) (best : Session α),
    ∃ l₁ l₂, best :: l = l₁ ++ (pyMinGo best l) :: l₂
      ∧ (∀ s ∈ l₁, (pyMinGo best l).count < s.count)
      ∧ (∀ s ∈ l₂, (pyMinGo best l).count ≤ s.count) := by
  intro l
  induction l with
  | nil =>
    intro best
    exact ⟨[], [], rfl, by simp, by simp⟩
  | cons s rest ih =>
    intro best
    by_cases hlt : s.count < best.count
    · obtain ⟨l₁, l₂, heq, hbefore, hafter⟩ := ih s
      rw [pyMinGo, if_pos hlt]
      have hsle : (pyMinGo s rest).count ≤ s.count := by
        cases l₁ with
        | nil =>
          rw [List.nil_append] at heq
          injection heq with h1 h2
          rw [← h1]
        | cons x t =>
          rw [List.cons_append] at heq
          injection heq with h1 h2
          exact le_of_lt (hbefore s (by rw [h1]; simp))
      exact ⟨best :: l₁, l₂, by rw [List.cons_append, ← heq],
        (by
          intro u hu
          rcases List.mem_cons.1 hu with hu | hu
          · rw [hu]; omega
          · exact hbefore u hu),
        hafter⟩
    · obtain ⟨l₁, l₂, heq, hbefore, hafter⟩ := ih best
      rw [pyMinGo, if_neg hlt]
      cases l₁ with
      | nil =>
        rw [List.nil_append] at heq
        injection heq with hbest hrest
        refine ⟨[], s :: l₂, ?_, by simp, ?_⟩
        · rw [List.nil_append, ← hbest, ← hrest]
        · intro u hu
          rcases List.mem_cons.1 hu with hu | hu
          · rw [hu, ← hbest]; omega
          · exact hafter u hu
      | cons x t =>
        rw [List.cons_append] at heq
        injection heq with hx hrest
        refine ⟨best :: s :: t, l₂, ?_, ?_, hafter⟩
        · rw [List.cons_append, List.cons_append, ← hrest]
        · intro u hu
          have hxlt : (pyMinGo best rest).count < x.count :=
            hbefore x (by simp)
          have hbx : best.count = x.count := by rw [hx]
          rcases List.mem_cons.1 hu with hu | hu
          · rw [hu]; omega
          · rcases List.mem_cons.1 hu with hu | hu
            · rw [hu]; omega
            · exact hbefore u (by simp [hu])

/-- C9: on a non-empty session list the aggregator reports the session
total, the exact mean (sum over count), and the first-encountered
maximal and minimal sessions: everything strictly earlier has a
strictly smaller (resp. larger) count and everything later is no
larger (resp. no smaller). -/
theorem claim_C9_aggregate_statistics {α : Type}
    (sessions : List (Session α)) (h : sessions ≠ []) :
    total_users sessions = sessions.length
    ∧ avg_translations_per_session sessions * (sessions.length : ℚ)
        = ((session_counts sessions).sum : ℚ)
    ∧ (∃ m, max_session sessions = some m ∧ ∃ l₁ l₂,
        sessions = l₁ ++ m :: l₂
        ∧ (∀ s ∈ l₁, s.count < m.count) ∧ (∀ s ∈ l₂, s.count ≤ m.count))
    ∧ (∃ n, min_session sessions = some n ∧ ∃ l₁ l₂,
        sessions = l₁ ++ n :: l₂
        ∧ (∀ s ∈ l₁, n.count < s.count)
        ∧ (∀ s ∈ l₂, n.count ≤ s.count)) := by
  cases sessions with
  | nil => exact absurd rfl h
  | cons s₀ rest =>
    refine ⟨rfl, ?_, ?_, ?_⟩
    · rw [avg_translations_per_session]
      have hlen : ((session_counts (s₀ :: rest)).length : ℚ)
          = ((s₀ :: rest).length : ℚ) := by
        rw [session_counts, List.length_map]
      rw [hlen]
      exact div_mul_cancel₀ _ (by
        simp only [List.length_cons]
        positivity)
    · obtain ⟨l₁, l₂, heq, hbefore, hafter⟩ := pyMaxGo_split rest s₀
      exact ⟨pyMaxGo s₀ rest, rfl, l₁, l₂, heq, hbefore, hafter⟩
    · obtain ⟨l₁, l₂, heq, hbefore, hafter⟩ := pyMinGo_split rest s₀
      exact ⟨pyMinGo s₀ rest, rfl, l₁, l₂, heq, hbefore, hafter⟩

/-- C9 witness on a concrete two-session list. -/
theorem claim_C9_aggregate_statistics_witness :
    ([⟨0, 0, 10, [1, 2], 2⟩, ⟨0, 4000, 4000, [3], 1⟩] :
        List (Session Nat)) ≠ []
    ∧ (total_users [⟨0, 0, 10, [1, 2], 2⟩, ⟨0, 4000, 4000, [3], 1⟩]
        = ([⟨0, 0, 10, [1, 2], 2⟩, ⟨0, 4000, 4000, [3], 1⟩] :
            List (Session Nat)).length
      ∧ avg_translations_per_session
          [⟨0, 0, 10, [1, 2], 2⟩, ⟨0, 4000, 4000, [3], 1⟩]
          * (([⟨0, 0, 10, [1, 2], 2⟩, ⟨0, 4000, 4000, [3], 1⟩] :
              List (Session Nat)).length : ℚ)
        = ((session_counts
            [⟨0, 0, 10, [1, 2], 2⟩, ⟨0, 4000, 4000, [3], 1⟩]).sum : ℚ)
      ∧ (∃ m, max_session
            [⟨0, 0, 10, [1, 2], 2⟩, ⟨0, 4000, 4000, [3], 1⟩] = some m
          ∧ ∃ l₁ l₂,
            ([⟨0, 0, 10, [1, 2], 2⟩, ⟨0, 4000, 4000, [3], 1⟩] :
              List (Session Nat)) = l₁ ++ m :: l₂
            ∧ (∀ s ∈ l₁, s.count < m.count)
            ∧ (∀ s ∈ l₂, s.count ≤ m.count))
      ∧ (∃ n, min_session
            [⟨0, 0, 10, [1, 2], 2⟩, ⟨0, 4000, 4000, [3], 1⟩] = some n
          ∧ ∃ l₁ l₂,
            ([⟨0, 0, 10, [1, 2], 2⟩, ⟨0, 4000, 4000, [3], 1⟩] :
              List (Session Nat)) = l₁ ++ n :: l₂
            ∧ (∀ s ∈ l₁, n.count < s.count)
            ∧ (∀ s ∈ l₂, n.count ≤ s.count))) :=
  ⟨by decide,
   claim_C9_aggregate_statistics
     [⟨0, 0, 10, [1, 2], 2⟩, ⟨0, 4000, 4000, [3], 1⟩] (by decide)⟩

/-! ### Claim C10: parse-failure diagnostics -/

/-- C10: failed records are excluded from session construction but
recorded, in input order, with row `i + 2` (zero-based index plus 2),
their raw timestamp string and their identifying field (placeholder
`unknown` when missing); parsed and failed records partition the
input; the preview is the first five failures plus the total count; and
a record with no timestamp field parses as the blank string, hence is a
parse failure and not an exception. -/
theorem claim_C10_failure_diagnostics (hist : List HRecord) (r : HRecord) :
    (scanHistory 0 hist).parse_errors =
      ((List.enumFrom 0 hist).filter
        (fun p => (parse_datetime_string p.2.getDatetime).isNone)).map
        (fun p => ⟨p.1 + 2, p.2.getDatetime, p.2.getId⟩)
    ∧ (scanHistory 0 hist).translations_with_datetime =
        hist.filterMap (fun r' =>
          (parse_datetime_string r'.getDatetime).map
            (fun dt => (dt.toSeconds, r')))
    ∧ (scanHistory 0 hist).parse_errors.length
        + (scanHistory 0 hist).translations_with_datetime.length
        = hist.length
    ∧ (∃ rest, (scanHistory 0 hist).parse_errors =
        (parse_errors_preview (scanHistory 0 hist).parse_errors).1 ++ rest)
    ∧ (parse_errors_preview (scanHistory 0 hist).parse_errors).1.length ≤ 5
    ∧ (parse_errors_preview (scanHistory 0 hist).parse_errors).2
        = (scanHistory 0 hist).parse_errors.length
    ∧ (r.datetime = none → parse_datetime_string r.getDatetime = none)
    ∧ (r.id = none → r.getId = "unknown") := by
  refine ⟨scanHistory_parse_errors hist 0, scanHistory_translations hist 0,
    scanHistory_length hist 0,
    ⟨(scanHistory 0 hist).parse_errors.drop 5,
      (List.take_append_drop 5 _).symm⟩,
    ?_, rfl, ?_, ?_⟩
  · rw [parse_errors_preview]
    simp only [List.length_take]
    exact inf_le_left
  · intro hnone
    rw [HRecord.getDatetime, hnone]
    rfl
  · intro hnone
    rw [HRecord.getId, hnone]
    rfl

/-- C10 witness: a record with a missing timestamp field and one with
an invalid month are both reported, in order, with rows 2 and 3 and
placeholder id, while a valid record still parses. -/
theorem claim_C10_failure_diagnostics_witness :
    (scanHistory 0
      [⟨none, none⟩, ⟨some ("13/45/2024"), some ("x")⟩,
       ⟨some ("01/02/2024 10:00:00"), some ("y")⟩]).parse_errors =
      [⟨2, "", "unknown"⟩, ⟨3, "13/45/2024", "x"⟩]
    ∧ ((⟨none, none⟩ : HRecord).datetime = none →
        parse_datetime_string (⟨none, none⟩ : HRecord).getDatetime = none)
    ∧ (scanHistory 0
        [⟨none, none⟩, ⟨some ("13/45/2024"), some ("x")⟩,
         ⟨some ("01/02/2024 10:00:00"), some ("y")⟩]).translations_with_datetime.length
        = 1 :=
  ⟨by decide,
   (claim_C10_failure_diagnostics
     [⟨none, none⟩, ⟨some ("13/45/2024"), some ("x")⟩,
      ⟨some ("01/02/2024 10:00:00"), some ("y")⟩] ⟨none, none⟩).2.2.2.2.2.2.1,
   by decide⟩

/-! ### Claims C3, C4, C7: direct computations of the session builder -/

/-- C3: the inactivity threshold is inclusive: two events exactly 60
minutes (3600 s) apart form one session of count 2; two events 61
minutes (3660 s) apart form two sessions of count 1 each. -/
theorem claim_C3_inclusive_threshold {α : Type} (t : Nat) (r₁ r₂ : α) :
    group_translations_by_sessions [(t, r₁), (t + 3600, r₂)] 60 =
      [⟨dateOf t, t, t + 3600, [r₁, r₂], 2⟩]
    ∧ group_translations_by_sessions [(t, r₁), (t + 3660, r₂)] 60 =
      [⟨dateOf t, t, t, [r₁], 1⟩,
       ⟨dateOf (t + 3660), t + 3660, t + 3660, [r₂], 1⟩] := by
  have h1 : t ≤ t + 3600 := by omega
  have h2 : t + 3600 - t = 3600 := by omega
  have h3 : t ≤ t + 3660 := by omega
  have h4 : t + 3660 - t = 3660 := by omega
  constructor
  · simp [group_translations_by_sessions, sortByTime, insertByTime,
      sessionsLoop, create_session_from_translations, h1, h2]
  · simp [group_translations_by_sessions, sortByTime, insertByTime,
      sessionsLoop, create_session_from_translations, h3, h4]

lemma mem_of_getLast?_eq {α : Type} {l : List α} {a : α}
    (h : l.getLast? = some a) : a ∈ l := by
  cases l with
  | nil => simp at h
  | cons x t =>
    rw [List.getLast?_eq_getLast _ (by simp)] at h
    rw [← Option.some.inj h]
    exact List.getLast_mem _

/-- Comparison of two datetimes of equal awareness never raises. -/
lemma pyCompareLE_some {a b : PyDateTime}
    (h : a.utcOffsetMinutes.isSome = b.utcOffsetMinutes.isSome) :
    ∃ r, pyCompareLE a b = some r := by
  rw [pyCompareLE]
  cases ha : a.utcOffsetMinutes with
  | none =>
    cases hb : b.utcOffsetMinutes with
    | none => exact ⟨_, rfl⟩
    | some ob => rw [ha, hb] at h; simp at h
  | some oa =>
    cases hb : b.utcOffsetMinutes with
    | none => rw [ha, hb] at h; simp at h
    | some ob => exact ⟨_, rfl⟩

/-- Subtraction of two datetimes of equal awareness never raises. -/
lemma pyGapLE_some {a b : PyDateTime} (thr : Nat)
    (h : a.utcOffsetMinutes.isSome = b.utcOffsetMinutes.isSome) :
    ∃ r, pyGapLE a b thr = some r := by
  rw [pyGapLE]
  cases ha : a.utcOffsetMinutes with
  | none =>
    cases hb : b.utcOffsetMinutes with
    | none => exact ⟨_, rfl⟩
    | some ob => rw [ha, hb] at h; simp at h
  | some oa =>
    cases hb : b.utcOffsetMinutes with
    | none => rw [ha, hb] at h; simp at h
    | some ob => exact ⟨_, rfl⟩

lemma insertByTimePy_some {α : Type} :
    ∀ (l : List (PyDateTime × α)) (p : PyDateTime × α),
    (∀ q ∈ l, q.1.utcOffsetMinutes.isSome = p.1.utcOffsetMinutes.isSome) →
    ∃ out, insertByTimePy p l = some out ∧ out ≠ []
      ∧ ∀ q ∈ out, q = p ∨ q ∈ l := by
  intro l
  induction l with
  | nil =>
    intro p _
    exact ⟨[p], rfl, by simp, by simp⟩
  | cons q qs ih =>
    intro p h
    obtain ⟨r, hr⟩ := pyCompareLE_some (h q (by simp)).symm
    cases r with
    | true =>
      refine ⟨p :: q :: qs, ?_, by simp, ?_⟩
      · simp only [insertByTimePy, hr]
      · intro x hx
        rcases List.mem_cons.1 hx with hx | hx
        · exact Or.inl hx
        · exact Or.inr hx
    | false =>
      obtain ⟨out', hout', hne', hmem'⟩ :=
        ih p (fun x hx => h x (List.mem_cons_of_mem q hx))
      refine ⟨q :: out', ?_, by simp, ?_⟩
      · simp only [insertByTimePy, hr, hout', Option.map_some']
      · intro x hx
        rcases List.mem_cons.1 hx with hx | hx
        · exact Or.inr (by simp [hx])
        · rcases hmem' x hx with hx | hx
          · exact Or.inl hx
          · exact Or.inr (List.mem_cons_of_mem q hx)

lemma sortByTimePy_some {α : Type} (b : Bool) :
    ∀ (l : List (PyDateTime × α)),
    (∀ q ∈ l, q.1.utcOffsetMinutes.isSome = b) →
    ∃ out, sortByTimePy l = some out ∧ (∀ q ∈ out, q ∈ l)
      ∧ (l ≠ [] → out ≠ []) := by
  intro l
  induction l with
  | nil =>
    intro _
    exact ⟨[], rfl, by simp, fun hc => absurd rfl hc⟩
  | cons p ps ih =>
    intro h
    obtain ⟨out₁, hsort, hmem₁, _⟩ :=
      ih (fun q hq => h q (List.mem_cons_of_mem p hq))
    obtain ⟨out, hins, hne, hmem⟩ := insertByTimePy_some out₁ p
      (fun q hq => (h q (List.mem_cons_of_mem p (hmem₁ q hq))).trans
        (h p (by simp)).symm)
    refine ⟨out, ?_, ?_, fun _ => hne⟩
    · simp only [sortByTimePy, hsort]
      exact hins
    · intro q hq
      rcases hmem q hq with hq | hq
      · rw [hq]; simp
      · exact List.mem_cons_of_mem p (hmem₁ q hq)

lemma create_session_py_some {α : Type} {st : List (PyDateTime × α)}
    {b : Bool} (h : ∀ q ∈ st, q.1.utcOffsetMinutes.isSome = b)
    (hne : st ≠ []) :
    ∃ s, create_session_from_translations_py st = some s := by
  obtain ⟨out, hsort, _, hne'⟩ := sortByTimePy_some b st h
  cases hout : out with
  | nil => exact absurd hout (hne' hne)
  | cons a rest =>
    rw [hout] at hsort
    exact ⟨_, by rw [create_session_from_translations_py, hsort]⟩

lemma sessionsLoopPy_some {α : Type} (thr : Nat) (b : Bool) :
    ∀ (l cur : List (PyDateTime × α)),
    (∀ q ∈ cur, q.1.utcOffsetMinutes.isSome = b) →
    (∀ q ∈ l, q.1.utcOffsetMinutes.isSome = b) →
    ∃ out, sessionsLoopPy thr cur l = some out := by
  intro l
  induction l with
  | nil =>
    intro cur hcur _
    cases hc : cur with
    | nil => exact ⟨[], rfl⟩
    | cons c cs =>
      rw [hc] at hcur
      obtain ⟨s, hs⟩ := create_session_py_some hcur (by simp)
      exact ⟨[s], by simp only [sessionsLoopPy, hs]⟩
  | cons p rest ih =>
    intro cur hcur hl
    have hp : p.1.utcOffsetMinutes.isSome = b := hl p (by simp)
    have hrest : ∀ q ∈ rest, q.1.utcOffsetMinutes.isSome = b :=
      fun q hq => hl q (List.mem_cons_of_mem p hq)
    have honep : ∀ q ∈ [p], q.1.utcOffsetMinutes.isSome = b := by
      intro q hq
      simp only [List.mem_singleton] at hq
      rw [hq]
      exact hp
    cases hlast : cur.getLast? with
    | none =>
      obtain ⟨out, hout⟩ := ih [p] honep hrest
      exact ⟨out, by simp only [sessionsLoopPy, hlast, hout]⟩
    | some q =>
      have hqa : q.1.utcOffsetMinutes.isSome = b :=
        hcur q (mem_of_getLast?_eq hlast)
      obtain ⟨r, hr⟩ := pyGapLE_some thr (hqa.trans hp.symm)
      cases r with
      | true =>
        obtain ⟨out, hout⟩ := ih (cur ++ [p])
          (by
            intro x hx
            rcases List.mem_append.1 hx with hx | hx
            · exact hcur x hx
            · exact honep x hx)
          hrest
        exact ⟨out, by simp only [sessionsLoopPy, hlast, hr, hout]⟩
      | false =>
        have hcurne : cur ≠ [] := by
          intro hc
          rw [hc] at hlast
          simp at hlast
        obtain ⟨s, hs⟩ := create_session_py_some hcur hcurne
        obtain ⟨out, hout⟩ := ih [p] honep hrest
        exact ⟨s :: out,
          by simp only [sessionsLoopPy, hlast, hr, hs, hout, Option.map_some']⟩

/-- C4 counterexample: the claim as stated is false of the source.
The program's own parser produces an offset-naive datetime from the
primary format and an offset-aware one from the ISO fallback with a
trailing Z; on a list holding one of each, the builder's sort compares
a naive with an aware datetime and raises `TypeError` (the checked
model returns `none`) instead of terminating normally. -/
theorem claim_C4_pure_function_counterexample :
    parse_datetime_string ("01/02/2024 10:00:00")
      = some ⟨2024, 1, 2, 10, 0, 0, none⟩
    ∧ parse_datetime_string ("2024-01-02T11:00:00Z")
      = some ⟨2024, 1, 2, 11, 0, 0, some 0⟩
    ∧ group_translations_by_sessions_py
        [(⟨2024, 1, 2, 10, 0, 0, none⟩, 0),
         (⟨2024, 1, 2, 11, 0, 0, some 0⟩, 1)] 60
      = none := by
  refine ⟨by decide, by decide, by decide⟩

/-- C4 (amended): on every input list of datetimes of uniform
offset-awareness — in particular on everything a single-format history
produces — the builder terminates without raising (the checked model
returns `some`), and two runs on equal inputs produce equal outputs;
no external or mutable state is involved. -/
theorem claim_C4_pure_function {α : Type}
    (twd twd' : List (PyDateTime × α)) (g : Nat) (b : Bool)
    (huniform : ∀ p ∈ twd, p.1.utcOffsetMinutes.isSome = b)
    (heq : twd = twd') :
    (∃ out, group_translations_by_sessions_py twd g = some out)
    ∧ group_translations_by_sessions_py twd g
        = group_translations_by_sessions_py twd' g := by
  refine ⟨?_, by rw [heq]⟩
  cases htwd : twd with
  | nil => exact ⟨[], rfl⟩
  | cons a t =>
    rw [htwd] at huniform
    obtain ⟨sorted, hsort, hmem, _⟩ := sortByTimePy_some b (a :: t) huniform
    obtain ⟨out, hout⟩ := sessionsLoopPy_some (g * 60) b sorted []
      (by simp) (fun q hq => huniform q (hmem q hq))
    exact ⟨out, by simp only [group_translations_by_sessions_py, hsort, hout]⟩

/-- C4 witness: a concrete all-naive two-event input. -/
theorem claim_C4_pure_function_witness :
    ((∀ p ∈ ([(⟨2024, 1, 2, 10, 0, 0, none⟩, 0),
        (⟨2024, 1, 2, 12, 0, 0, none⟩, 1)] : List (PyDateTime × Nat)),
        p.1.utcOffsetMinutes.isSome = false)
      ∧ ([(⟨2024, 1, 2, 10, 0, 0, none⟩, 0),
          (⟨2024, 1, 2, 12, 0, 0, none⟩, 1)] : List (PyDateTime × Nat))
        = [(⟨2024, 1, 2, 10, 0, 0, none⟩, 0),
           (⟨2024, 1, 2, 12, 0, 0, none⟩, 1)])
    ∧ ((∃ out, group_translations_by_sessions_py
          [(⟨2024, 1, 2, 10, 0, 0, none⟩, 0),
           (⟨2024, 1, 2, 12, 0, 0, none⟩, 1)] 60 = some out)
       ∧ group_translations_by_sessions_py
           [(⟨2024, 1, 2, 10, 0, 0, none⟩, 0),
            (⟨2024, 1, 2, 12, 0, 0, none⟩, 1)] 60
         = group_translations_by_sessions_py
             [(⟨2024, 1, 2, 10, 0, 0, none⟩, 0),
              (⟨2024, 1, 2, 12, 0, 0, none⟩, 1)] 60) :=
  ⟨⟨by decide, rfl⟩,
   claim_C4_pure_function
     [(⟨2024, 1, 2, 10, 0, 0, none⟩, 0), (⟨2024, 1, 2, 12, 0, 0, none⟩, 1)]
     [(⟨2024, 1, 2, 10, 0, 0, none⟩, 0), (⟨2024, 1, 2, 12, 0, 0, none⟩, 1)]
     60 false (by decide) rfl⟩

/-- C7: degenerate inputs: empty input yields the empty session list,
and a single event `(t, r)` yields one session of count 1 with start
and end both `t` and duration zero. -/
theorem claim_C7_degenerate_inputs {α : Type} (t : Nat) (r : α) (g : Nat) :
    group_translations_by_sessions ([] : List (Nat × α)) g = []
    ∧ group_translations_by_sessions [(t, r)] 60 =
        [⟨dateOf t, t, t, [r], 1⟩]
    ∧ ∀ s ∈ group_translations_by_sessions [(t, r)] 60,
        s.end_time - s.start_time = 0 := by
  refine ⟨rfl, ?_, ?_⟩
  · simp [group_translations_by_sessions, sortByTime, insertByTime,
      sessionsLoop, create_session_from_translations]
  · intro s hs
    simp [group_translations_by_sessions, sortByTime, insertByTime,
      sessionsLoop, create_session_from_translations] at hs
    subst hs
    simp

end FormTranslator
